/-
Verification of the tournament bracket-progression engine of `src/lib.rs`
(single elimination, double elimination, Swiss pairing).

Shallow embedding conventions:
* Rust's `rand::thread_rng()` with `gen_range(0..2)` is modelled as an
  oracle stream `o : Nat → Fin 2` together with an explicit counter `k`
  that is threaded through every decision, so that theorems quantify over
  every possible sequence of match outcomes.
* The `HashMap<Player, i32>` score table of the Swiss driver has an
  unspecified iteration order.  It is modelled as an association list with
  unique keys; every place where Rust iterates the map, the embedding
  first applies an abstract reordering `σ : Nat → List (Player × Int) →
  List (Player × Int)`, and theorems assume only that `σ` permutes its
  input.
* Rust's `self.matches.push(...)` is modelled by returning the list of matches
  recorded by each driver, appended to the tournament's log by `start`.
-/
import Mathlib

namespace Tourney

/-- The `Player` struct of `src/lib.rs`: a numeric id and a display name. -/
structure Player where
  id : Nat
  name : String
deriving DecidableEq

/-- The `Match` struct of `src/lib.rs`: two contestants and an optional winner. -/
structure Match where
  player1 : Player
  player2 : Player
  winner : Option Player
deriving DecidableEq

/-- The `TournamentType` enum of `src/lib.rs`. -/
inductive TournamentType where
  | SingleElimination
  | DoubleElimination
  | Swiss
deriving DecidableEq

/-- The `Tournament` struct of `src/lib.rs`. -/
structure Tournament where
  tournament_type : TournamentType
  players : List Player
  matches' : List Match
deriving DecidableEq

/-- The stream of `rng.gen_range(0..2)` draws. -/
abbrev Oracle := Nat → Fin 2

/-- An abstract iteration order for the Swiss score map: the `t`-th time the
map is iterated, its entries are listed as `σ t scores`.  Theorems assume
`(σ t s).Perm s`. -/
abbrev ScoreIter := Nat → List (Player × Int) → List (Player × Int)

/-- The `RoundResult` struct of `src/lib.rs`, extended with the matches the round pushed
onto the tournament's match log and the advanced oracle counter. -/
structure RoundResult where
  winners : List Player
  losers : List Player
  matches' : List Match
  k : Nat
deriving DecidableEq

/-- Model of `Tournament::play_round`: chunk the pool into consecutive pairs, let the
oracle pick each winner (`chunk[winner_index]`, loser `chunk[1-winner_index]`),
record each decided pair as a `Match`; an odd player out advances with no
match recorded. -/
def play_round (o : Oracle) : Nat → List Player → RoundResult
  | k, [] => { winners := [], losers := [], matches' := [], k := k }
  | k, [p] => { winners := [p], losers := [], matches' := [], k := k }
  | k, a :: b :: rest =>
    let winner := if o k = 0 then a else b
    let loser := if o k = 0 then b else a
    let r := play_round o (k + 1) rest
    { winners := winner :: r.winners,
      losers := loser :: r.losers,
      matches' := { player1 := a, player2 := b, winner := some winner } :: r.matches',
      k := r.k }

/-- Model of `Tournament::simulate_match`: the oracle picks `player1` (index 0) or
`player2` (index 1); the decided match is recorded. -/
def simulate_match (o : Oracle) (k : Nat) (player1 player2 : Player) :
    Match × Player × Nat :=
  let winner := if o k = 0 then player1 else player2
  ({ player1 := player1, player2 := player2, winner := some winner }, winner, k + 1)

/-- Lines 148-157 of `src/lib.rs`: the grand final of double elimination.
`w` is the winners-bracket finalist, `l` the losers-bracket finalist.  If the
first decided match goes to `l`, one more match between the same two
contestants is decided and its winner is final; otherwise the first match's
winner is final. -/
def grand_final (o : Oracle) (k : Nat) (w l : Player) : List Match × Player × Nat :=
  let r1 := simulate_match o k w l
  if r1.2.1 = l then
    let r2 := simulate_match o r1.2.2 w l
    ([r1.1, r2.1], r2.2.1, r2.2.2)
  else
    ([r1.1], r1.2.1, r1.2.2)

/-- A recorded match is decided in favour of one of its own contestants. -/
def match_valid (m : Match) : Prop :=
  m.winner = some m.player1 ∨ m.winner = some m.player2

instance (m : Match) : Decidable (match_valid m) := by
  unfold match_valid; infer_instance

theorem play_round_winners_length (o : Oracle) :
    ∀ (k : Nat) (ps : List Player),
      (play_round o k ps).winners.length = (ps.length + 1) / 2
  | _, [] => by simp [play_round]
  | _, [p] => by simp [play_round]
  | k, a :: b :: rest => by
    simp only [play_round, List.length_cons,
      play_round_winners_length o (k + 1) rest]
    omega

theorem play_round_losers_length (o : Oracle) :
    ∀ (k : Nat) (ps : List Player),
      (play_round o k ps).losers.length = ps.length / 2
  | _, [] => by simp [play_round]
  | _, [p] => by simp [play_round]
  | k, a :: b :: rest => by
    simp only [play_round, List.length_cons,
      play_round_losers_length o (k + 1) rest]
    omega

theorem play_round_matches_length (o : Oracle) :
    ∀ (k : Nat) (ps : List Player),
      (play_round o k ps).matches'.length = ps.length / 2
  | _, [] => by simp [play_round]
  | _, [p] => by simp [play_round]
  | k, a :: b :: rest => by
    simp only [play_round, List.length_cons,
      play_round_matches_length o (k + 1) rest]
    omega

theorem play_round_matches_valid (o : Oracle) :
    ∀ (k : Nat) (ps : List Player),
      ∀ m ∈ (play_round o k ps).matches', match_valid m
  | _, [], m => by simp [play_round]
  | _, [p], m => by simp [play_round]
  | k, a :: b :: rest, m => by
    simp only [play_round, List.mem_cons]
    rintro (rfl | hm)
    · by_cases h : o k = 0 <;> simp [match_valid, h]
    · exact play_round_matches_valid o (k + 1) rest m hm

/-- The winners and losers of a round partition the round's pool. -/
theorem play_round_perm (o : Oracle) :
    ∀ (k : Nat) (ps : List Player),
      ((play_round o k ps).winners ++ (play_round o k ps).losers).Perm ps
  | _, [] => by simp [play_round]
  | _, [p] => by simp [play_round]
  | k, a :: b :: rest => by
    have ih := play_round_perm o (k + 1) rest
    by_cases h : o k = 0 <;>
      simp only [play_round, List.cons_append, h, if_true, if_false, reduceIte]
    · exact (List.Perm.cons a List.perm_middle).trans
        (List.Perm.cons a (List.Perm.cons b ih))
    · exact ((List.Perm.cons b List.perm_middle).trans
        (List.Perm.cons b (List.Perm.cons a ih))).trans (List.Perm.swap a b rest)

theorem play_round_winners_subset (o : Oracle) (k : Nat) (ps : List Player) :
    (play_round o k ps).winners ⊆ ps := fun _ ha =>
  (play_round_perm o k ps).mem_iff.mp (List.mem_append_left _ ha)

theorem play_round_losers_subset (o : Oracle) (k : Nat) (ps : List Player) :
    (play_round o k ps).losers ⊆ ps := fun _ ha =>
  (play_round_perm o k ps).mem_iff.mp (List.mem_append_right _ ha)

/-- The `while round_players.len() > 1` loop of
`Tournament::start_single_elimination` (lines 107-125): returns the recorded
matches and the final surviving pool. -/
def start_single_elimination_loop (o : Oracle) (k : Nat)
    (round_players : List Player) : List Match × List Player :=
  if h : round_players.length > 1 then
    let r := play_round o k round_players
    have : r.winners.length < round_players.length := by
      rw [play_round_winners_length]; omega
    let rest := start_single_elimination_loop o r.k r.winners
    (r.matches' ++ rest.1, rest.2)
  else ([], round_players)
termination_by round_players.length

/-- Model of `Tournament::start_single_elimination`: run rounds until at most one
player survives; return the recorded matches and `round_players.first()`. -/
def start_single_elimination (o : Oracle) (players : List Player) :
    List Match × Option Player :=
  let r := start_single_elimination_loop o 0 players
  (r.1, r.2.head?)

/-- Everything the claims need about the single-elimination loop on a
non-empty pool: exactly one survivor, drawn from the pool, exactly
`n - 1` matches, all decided in favour of a contestant. -/
theorem sel_loop_spec (o : Oracle) :
    ∀ (n k : Nat) (ps : List Player), ps.length = n → ps ≠ [] →
      (start_single_elimination_loop o k ps).2.length = 1 ∧
      (start_single_elimination_loop o k ps).2 ⊆ ps ∧
      (start_single_elimination_loop o k ps).1.length = ps.length - 1 ∧
      ∀ m ∈ (start_single_elimination_loop o k ps).1, match_valid m := by
  intro n
  induction n using Nat.strong_induction_on with
  | _ n ih =>
    intro k ps hlen hne
    by_cases hgt : ps.length > 1
    · have hwlen := play_round_winners_length o k ps
      have hwne : (play_round o k ps).winners ≠ [] := by
        rw [← List.length_pos, hwlen]; omega
      have hih := ih ((ps.length + 1) / 2) (by omega) (play_round o k ps).k
        (play_round o k ps).winners hwlen hwne
      unfold start_single_elimination_loop
      rw [dif_pos hgt]
      refine ⟨hih.1, fun a ha => play_round_winners_subset o k ps (hih.2.1 ha), ?_, ?_⟩
      · have := play_round_matches_length o k ps
        simp only [List.length_append, hih.2.2.1, this, hwlen]
        omega
      · intro m hm
        rcases List.mem_append.mp hm with hm | hm
        · exact play_round_matches_valid o k ps m hm
        · exact hih.2.2.2 m hm
    · unfold start_single_elimination_loop
      rw [dif_neg hgt]
      have : ps.length = 1 := by
        have := List.length_pos.mpr hne; omega
      exact ⟨this, fun a ha => ha, by simp [this], by simp⟩

/-- The interior of the `if !losers_bracket.is_empty()` guard on
lines 142-146 of `src/lib.rs`: run a round on the (extended) losers pool
unless it is empty; its winners become the new losers pool. -/
def losers_round (o : Oracle) (k : Nat) (lb1 : List Player) :
    List Match × List Player × Nat :=
  if lb1.isEmpty then ([], lb1, k)
  else
    let r2 := play_round o k lb1
    (r2.matches', r2.winners, r2.k)

theorem losers_round_cases (o : Oracle) (k : Nat) (lb1 : List Player) :
    (lb1.length = 0 ∧ (losers_round o k lb1).2.1.length = 0) ∨
    (lb1.length ≠ 0 ∧
      (losers_round o k lb1).2.1.length = (lb1.length + 1) / 2) := by
  by_cases hh : lb1.isEmpty
  · left
    have : lb1 = [] := by simpa using hh
    subst this
    simp [losers_round]
  · right
    have : lb1 ≠ [] := by simpa using hh
    constructor
    · simpa [List.length_pos] using this
    · simp only [losers_round, hh, Bool.false_eq_true, if_false]
      exact play_round_winners_length o k lb1

/-- One cycle of the double-elimination `while` loop, before the
grand-final check: a round on the winners pool, its losers extended onto
the losers pool, then (if non-empty) a round on the losers pool.  Returns
(recorded matches, new winners pool, new losers pool, oracle counter). -/
def de_cycle (o : Oracle) (k : Nat) (wb lb : List Player) :
    List Match × List Player × List Player × Nat :=
  let r1 := play_round o k wb
  let s2 := losers_round o r1.k (lb ++ r1.losers)
  (r1.matches' ++ s2.1, r1.winners, s2.2.1, s2.2.2)

/-- The loop measure `2·|winners| + |losers|` strictly decreases across a
cycle whenever the loop guard holds. -/
theorem de_cycle_decrease (o : Oracle) (k : Nat) (wb lb : List Player)
    (h : wb.length > 1 ∨ lb.length > 1) :
    2 * (de_cycle o k wb lb).2.1.length + (de_cycle o k wb lb).2.2.1.length <
      2 * wb.length + lb.length := by
  unfold de_cycle
  dsimp only
  have hw := play_round_winners_length o k wb
  have hl := play_round_losers_length o k wb
  rcases losers_round_cases o (play_round o k wb).k (lb ++ (play_round o k wb).losers)
    with ⟨h0, h2⟩ | ⟨h0, h2⟩ <;>
  · simp only [List.length_append] at h0 h2
    omega

theorem de_cycle_matches_eq (o : Oracle) (k : Nat) (wb lb : List Player) :
    (de_cycle o k wb lb).1 = (play_round o k wb).matches' ++
      (losers_round o (play_round o k wb).k (lb ++ (play_round o k wb).losers)).1 := rfl

theorem de_cycle_wb_eq (o : Oracle) (k : Nat) (wb lb : List Player) :
    (de_cycle o k wb lb).2.1 = (play_round o k wb).winners := rfl

theorem de_cycle_lb_eq (o : Oracle) (k : Nat) (wb lb : List Player) :
    (de_cycle o k wb lb).2.2.1 =
      (losers_round o (play_round o k wb).k (lb ++ (play_round o k wb).losers)).2.1 := rfl

theorem losers_round_snd_subset (o : Oracle) (k : Nat) (lb1 : List Player) :
    (losers_round o k lb1).2.1 ⊆ lb1 := by
  unfold losers_round
  by_cases hh : lb1.isEmpty <;> simp only [hh, Bool.false_eq_true, if_true, if_false]
  · exact fun a ha => ha
  · exact play_round_winners_subset o k lb1

theorem losers_round_matches_valid (o : Oracle) (k : Nat) (lb1 : List Player) :
    ∀ m ∈ (losers_round o k lb1).1, match_valid m := by
  unfold losers_round
  by_cases hh : lb1.isEmpty <;> simp only [hh, Bool.false_eq_true, if_true, if_false]
  · simp
  · exact play_round_matches_valid o k lb1

theorem losers_round_snd_nodup (o : Oracle) (k : Nat) (lb1 : List Player)
    (h : lb1.Nodup) : (losers_round o k lb1).2.1.Nodup := by
  unfold losers_round
  by_cases hh : lb1.isEmpty <;> simp only [hh, Bool.false_eq_true, if_true, if_false]
  · exact h
  · exact (List.nodup_append.mp ((play_round_perm o k lb1).nodup_iff.mpr h)).1

theorem de_cycle_winners_subset (o : Oracle) (k : Nat) (wb lb : List Player) :
    (de_cycle o k wb lb).2.1 ⊆ wb := by
  rw [de_cycle_wb_eq]; exact play_round_winners_subset o k wb

theorem de_cycle_losers_mem (o : Oracle) (k : Nat) (wb lb : List Player) :
    ∀ p ∈ (de_cycle o k wb lb).2.2.1, p ∈ wb ∨ p ∈ lb := by
  rw [de_cycle_lb_eq]
  intro p hp
  have := losers_round_snd_subset o (play_round o k wb).k
    (lb ++ (play_round o k wb).losers) hp
  rcases List.mem_append.mp this with h | h
  · exact Or.inr h
  · exact Or.inl (play_round_losers_subset o k wb h)

theorem de_cycle_wb_nonempty (o : Oracle) (k : Nat) (wb lb : List Player)
    (h : wb ≠ []) : (de_cycle o k wb lb).2.1 ≠ [] := by
  rw [de_cycle_wb_eq, ← List.length_pos, play_round_winners_length]
  have := List.length_pos.mpr h
  omega

theorem de_cycle_nodup (o : Oracle) (k : Nat) (wb lb : List Player)
    (h : (wb ++ lb).Nodup) :
    ((de_cycle o k wb lb).2.1 ++ (de_cycle o k wb lb).2.2.1).Nodup := by
  rw [de_cycle_wb_eq, de_cycle_lb_eq]
  have hperm := play_round_perm o k wb
  have hp : ((play_round o k wb).winners ++
      (lb ++ (play_round o k wb).losers)).Perm (wb ++ lb) := by
    refine (List.Perm.append_left _ List.perm_append_comm).trans ?_
    rw [← List.append_assoc]
    exact hperm.append_right lb
  have h1 := hp.nodup_iff.mpr h
  rcases List.nodup_append.mp h1 with ⟨hW, hlb1, hdisj⟩
  refine List.nodup_append.mpr ⟨hW, ?_, ?_⟩
  · exact losers_round_snd_nodup o (play_round o k wb).k _ hlb1
  · intro a ha hmem
    exact hdisj ha (losers_round_snd_subset o (play_round o k wb).k _ hmem)

theorem de_cycle_matches_valid (o : Oracle) (k : Nat) (wb lb : List Player) :
    ∀ m ∈ (de_cycle o k wb lb).1, match_valid m := by
  rw [de_cycle_matches_eq]
  intro m hm
  rcases List.mem_append.mp hm with hm | hm
  · exact play_round_matches_valid o k wb m hm
  · exact losers_round_matches_valid o (play_round o k wb).k _ m hm

theorem grand_final_winner_mem (o : Oracle) (k : Nat) (w l : Player) :
    (grand_final o k w l).2.1 = w ∨ (grand_final o k w l).2.1 = l := by
  unfold grand_final simulate_match
  by_cases h3 : o k = 0 <;> by_cases h2 : o (k + 1) = 0 <;>
    by_cases h4 : w = l <;>
      simp [h3, h2, h4]

theorem grand_final_matches_valid (o : Oracle) (k : Nat) (w l : Player) :
    ∀ m ∈ (grand_final o k w l).1, match_valid m := by
  unfold grand_final simulate_match
  by_cases h3 : o k = 0 <;> by_cases h2 : o (k + 1) = 0 <;>
    by_cases h4 : w = l <;>
      simp [h3, h2, h4, match_valid]

/-- One observable step of the double-elimination loop, relating the pools
at the start of a cycle to the pools at the start of the next: the winners
pool only shrinks, the losers pool draws only on the two previous pools, and
distinctness of the combined pools is preserved. -/
def de_step (s s' : List Player × List Player) : Prop :=
  s'.1 ⊆ s.1 ∧ (∀ p ∈ s'.2, p ∈ s.1 ∨ p ∈ s.2) ∧
    ((s.1 ++ s.2).Nodup → (s'.1 ++ s'.2).Nodup)

theorem de_cycle_de_step (o : Oracle) (k : Nat) (wb lb : List Player) :
    de_step (wb, lb) ((de_cycle o k wb lb).2.1, (de_cycle o k wb lb).2.2.1) :=
  ⟨de_cycle_winners_subset o k wb lb, de_cycle_losers_mem o k wb lb,
    de_cycle_nodup o k wb lb⟩

/-- The state produced by the double-elimination `while` loop (lines 138-158
of `src/lib.rs`), extended with the recorded matches, the oracle counter and
the trace of `(winners_bracket, losers_bracket)` pool pairs observed at the
head of each loop cycle (with one final entry for the pools at exit or at
the grand final). -/
structure DoubleElimResult where
  matches' : List Match
  final_winner : Option Player
  winners_bracket : List Player
  k : Nat
  trace : List (List Player × List Player)

/-- The `while winners_bracket.len() > 1 || losers_bracket.len() > 1` loop of
`Tournament::start_double_elimination`: each cycle plays a winners round,
extends the losers pool with its losers, plays a losers round on a non-empty
losers pool, and when exactly one contestant remains in each pool resolves
the grand final and breaks. -/
def start_double_elimination_loop (o : Oracle) (k : Nat)
    (winners_bracket losers_bracket : List Player) : DoubleElimResult :=
  if h : winners_bracket.length > 1 ∨ losers_bracket.length > 1 then
    let c := de_cycle o k winners_bracket losers_bracket
    if h1 : c.2.1.length = 1 ∧ c.2.2.1.length = 1 then
      let gf := grand_final o c.2.2.2
        (c.2.1.head (List.length_pos.mp (by omega)))
        (c.2.2.1.head (List.length_pos.mp (by omega)))
      { matches' := c.1 ++ gf.1,
        final_winner := some gf.2.1,
        winners_bracket := c.2.1,
        k := gf.2.2,
        trace := [(winners_bracket, losers_bracket), (c.2.1, c.2.2.1)] }
    else
      let res := start_double_elimination_loop o c.2.2.2 c.2.1 c.2.2.1
      { matches' := c.1 ++ res.matches',
        final_winner := res.final_winner,
        winners_bracket := res.winners_bracket,
        k := res.k,
        trace := (winners_bracket, losers_bracket) :: res.trace }
  else
    { matches' := [], final_winner := none,
      winners_bracket := winners_bracket, k := k,
      trace := [(winners_bracket, losers_bracket)] }
termination_by 2 * winners_bracket.length + losers_bracket.length
decreasing_by exact de_cycle_decrease o k winners_bracket losers_bracket h

/-- Model of `Tournament::start_double_elimination`: run the loop from the roster and
an empty losers pool; the result is `final_winner` if the grand final was
reached, otherwise the sole surviving winners-pool contestant, if any. -/
def start_double_elimination (o : Oracle) (players : List Player) :
    List Match × Option Player :=
  let r := start_double_elimination_loop o 0 players []
  (r.matches', r.final_winner.or r.winners_bracket.head?)

/-- Everything the claims need about the double-elimination loop: the final
winners pool shrinks from the input pool and stays non-empty, a grand-final
winner comes from one of the pools, all recorded matches are decided in
favour of a contestant, the trace is bounded by the loop measure, starts at
the input pools, and consecutive trace entries are related by `de_step`. -/
theorem del_loop_spec (o : Oracle) :
    ∀ (n k : Nat) (wb lb : List Player), 2 * wb.length + lb.length = n →
      (start_double_elimination_loop o k wb lb).winners_bracket ⊆ wb ∧
      (wb ≠ [] → (start_double_elimination_loop o k wb lb).winners_bracket ≠ []) ∧
      (∀ w, (start_double_elimination_loop o k wb lb).final_winner = some w →
        w ∈ wb ∨ w ∈ lb) ∧
      (∀ m ∈ (start_double_elimination_loop o k wb lb).matches', match_valid m) ∧
      (start_double_elimination_loop o k wb lb).trace.length ≤ n + 1 ∧
      (start_double_elimination_loop o k wb lb).trace.head? = some (wb, lb) ∧
      List.Chain' de_step (start_double_elimination_loop o k wb lb).trace := by
  intro n
  induction n using Nat.strong_induction_on with
  | _ n ih =>
    intro k wb lb hn
    by_cases h : wb.length > 1 ∨ lb.length > 1
    · unfold start_double_elimination_loop
      rw [dif_pos h]
      dsimp only
      by_cases h1 : (de_cycle o k wb lb).2.1.length = 1 ∧
          (de_cycle o k wb lb).2.2.1.length = 1
      · rw [dif_pos h1]
        dsimp only
        refine ⟨de_cycle_winners_subset o k wb lb, ?_, ?_, ?_, ?_, rfl, ?_⟩
        · intro _
          rw [← List.length_pos]
          omega
        · intro w hw
          have hw' := Option.some.inj hw
          rcases grand_final_winner_mem o (de_cycle o k wb lb).2.2.2
            ((de_cycle o k wb lb).2.1.head (List.length_pos.mp (by omega)))
            ((de_cycle o k wb lb).2.2.1.head (List.length_pos.mp (by omega)))
            with hg | hg
          · rw [← hw', hg]
            exact Or.inl (de_cycle_winners_subset o k wb lb (List.head_mem _))
          · rw [← hw', hg]
            exact de_cycle_losers_mem o k wb lb _ (List.head_mem _)
        · intro m hm
          rcases List.mem_append.mp hm with hm | hm
          · exact de_cycle_matches_valid o k wb lb m hm
          · exact grand_final_matches_valid _ _ _ _ m hm
        · rcases h with h | h <;> simp <;> omega
        · exact List.chain'_cons.mpr ⟨de_cycle_de_step o k wb lb,
            List.chain'_singleton _⟩
      · rw [dif_neg h1]
        dsimp only
        have hdec := de_cycle_decrease o k wb lb h
        have hih := ih (2 * (de_cycle o k wb lb).2.1.length +
            (de_cycle o k wb lb).2.2.1.length) (by omega)
          (de_cycle o k wb lb).2.2.2 (de_cycle o k wb lb).2.1
          (de_cycle o k wb lb).2.2.1 rfl
        refine ⟨fun a ha => de_cycle_winners_subset o k wb lb (hih.1 ha),
          ?_, ?_, ?_, ?_, rfl, ?_⟩
        · intro hne
          exact hih.2.1 (de_cycle_wb_nonempty o k wb lb hne)
        · intro w hw
          rcases hih.2.2.1 w hw with hmem | hmem
          · exact Or.inl (de_cycle_winners_subset o k wb lb hmem)
          · exact de_cycle_losers_mem o k wb lb w hmem
        · intro m hm
          rcases List.mem_append.mp hm with hm | hm
          · exact de_cycle_matches_valid o k wb lb m hm
          · exact hih.2.2.2.1 m hm
        · have := hih.2.2.2.2.1
          simp only [List.length_cons]
          omega
        · refine List.chain'_cons'.mpr ⟨?_, hih.2.2.2.2.2.2⟩
          intro y hy
          rw [hih.2.2.2.2.2.1] at hy
          have : y = ((de_cycle o k wb lb).2.1, (de_cycle o k wb lb).2.2.1) := by
            have := hy
            simp only [Option.mem_def, Option.some.injEq] at this
            exact this.symm
          rw [this]
          exact de_cycle_de_step o k wb lb
    · unfold start_double_elimination_loop
      rw [dif_neg h]
      refine ⟨fun a ha => ha, fun hne => hne, ?_, by simp, by simp, rfl,
        List.chain'_singleton _⟩
      intro w hw
      simp at hw

/-- Rust's `usize::next_power_of_two`: the least power of two ≥ the argument
(1 for 0 and 1). -/
def next_power_of_two (n : Nat) : Nat := 2 ^ Nat.clog 2 n

/-- Line 168 of `src/lib.rs`:
`self.players.len().next_power_of_two().trailing_zeros()`, the number of
Swiss rounds (the trailing-zero count of a power of two is its exponent,
i.e. its base-2 logarithm). -/
def swiss_rounds (n : Nat) : Nat := Nat.log2 (next_power_of_two n)

theorem swiss_rounds_eq_clog (n : Nat) : swiss_rounds n = Nat.clog 2 n := by
  rw [swiss_rounds, next_power_of_two, Nat.log2_eq_log_two,
    Nat.log_pow (by norm_num)]

/-- An `HashMap::insert`-style update used when building the initial score
table: set key `p` to `v`, replacing any existing entry for `p`. -/
def insert_score : List (Player × Int) → Player → Int → List (Player × Int)
  | [], p, v => [(p, v)]
  | (q, s) :: rest, p, v =>
    if q = p then (q, v) :: rest else (q, s) :: insert_score rest p v

/-- Lines 169-173 of `src/lib.rs`: every roster player starts at score 0. -/
def init_scores (players : List Player) : List (Player × Int) :=
  players.foldl (fun m p => insert_score m p 0) []

/-- Model of `*scores.entry(winner).or_insert(0) += 1` (line 179): increment the
winner's score, first inserting 0 if the key were missing. -/
def incr_score : List (Player × Int) → Player → List (Player × Int)
  | [], p => [(p, 1)]
  | (q, s) :: rest, p =>
    if q = p then (q, s + 1) :: rest else (q, s) :: incr_score rest p

/-- The keys of the score table, in iteration order. -/
def score_keys (s : List (Player × Int)) : List Player := s.map Prod.fst

/-- Model of `players_sorted.sort_by_key(|&(_, &score)| -score)` (line 273): a stable
sort ascending in `-score`, i.e. descending in score. -/
def sort_desc (l : List (Player × Int)) : List (Player × Int) :=
  l.mergeSort (fun a b => b.2 ≤ a.2)

/-- The `chunks(2)`/`filter_map` of lines 274-283: pair consecutive sorted
entries, dropping a trailing singleton. -/
def chunk_pairs : List (Player × Int) → List (Player × Player)
  | a :: b :: rest => (a.1, b.1) :: chunk_pairs rest
  | _ => []

/-- Model of `Tournament::pair_players_swiss`, applied to one iteration order of the
score map. -/
def pair_players_swiss (scores_iter : List (Player × Int)) :
    List (Player × Player) :=
  chunk_pairs (sort_desc scores_iter)

/-- Lines 177-180 of `src/lib.rs`: play the round's pairs in order, recording
each match and incrementing each winner's score. -/
def play_swiss_pairs (o : Oracle) :
    Nat → List (Player × Player) → List (Player × Int) →
      List Match × List (Player × Int) × Nat
  | k, [], scores => ([], scores, k)
  | k, (p1, p2) :: rest, scores =>
    let r := simulate_match o k p1 p2
    let res := play_swiss_pairs o r.2.2 rest (incr_score scores r.2.1)
    (r.1 :: res.1, res.2)

/-- The `for round in 0..rounds` loop of `Tournament::start_swiss`
(lines 174-182): `t` is the current round index, `remaining` the rounds still
to play; each round pairs the current map iterated via `σ t`. -/
def start_swiss_loop (o : Oracle) (σ : ScoreIter) :
    Nat → Nat → List (Player × Int) → Nat →
      List Match × List (Player × Int) × Nat
  | 0, _, scores, k => ([], scores, k)
  | remaining + 1, t, scores, k =>
    let r := play_swiss_pairs o k (pair_players_swiss (σ t scores)) scores
    let res := start_swiss_loop o σ remaining (t + 1) r.2.1 r.2.2
    (r.1 ++ res.1, res.2)

/-- Model of `scores.into_iter().max_by_key(|&(_, score)| score)` (lines 183-186): the
last entry with maximal score in iteration order, if any. -/
def max_by_key_score : List (Player × Int) → Option (Player × Int)
  | [] => none
  | x :: rest =>
    match max_by_key_score rest with
    | none => some x
    | some y => if x.2 > y.2 then some x else some y

/-- The score the table records for `p`, if `p` is one of its keys. -/
def score_of (s : List (Player × Int)) (p : Player) : Option Int :=
  (s.find? (fun e => e.1 = p)).map Prod.snd

/-- Model of `Tournament::start_swiss` (lines 167-187 of `src/lib.rs`). -/
def start_swiss (o : Oracle) (σ : ScoreIter) (players : List Player) :
    List Match × Option Player :=
  let rounds := swiss_rounds players.length
  let r := start_swiss_loop o σ rounds 0 (init_scores players) 0
  (r.1, (max_by_key_score (σ rounds r.2.1)).map Prod.fst)

/-- Model of `Tournament::new`. -/
def Tournament.new (tournament_type : TournamentType)
    (players : List Player) : Tournament :=
  { tournament_type := tournament_type, players := players, matches' := [] }

/-- Model of `Tournament::start`: dispatch on the format.  The returned tournament has
the driver's recorded matches appended to its (empty-at-construction) log,
and the driver's winner is returned. -/
def Tournament.start (t : Tournament) (o : Oracle) (σ : ScoreIter) :
    Tournament × Option Player :=
  let r :=
    match t.tournament_type with
    | TournamentType.SingleElimination => start_single_elimination o t.players
    | TournamentType.DoubleElimination => start_double_elimination o t.players
    | TournamentType.Swiss => start_swiss o σ t.players
  ({ t with matches' := t.matches' ++ r.1 }, r.2)

theorem score_keys_insert (q p : Player) (v : Int) :
    ∀ s : List (Player × Int),
      (q ∈ score_keys (insert_score s p v) ↔ q ∈ score_keys s ∨ q = p)
  | [] => by simp [insert_score, score_keys]
  | (a, b) :: rest => by
    by_cases h : a = p
    · subst h
      simp [insert_score, score_keys]
      tauto
    · simp only [insert_score, h, if_false, score_keys, List.map_cons,
        List.mem_cons]
      have := score_keys_insert q p v rest
      simp only [score_keys] at this
      rw [this]
      tauto

theorem score_keys_insert_nodup (p : Player) (v : Int) :
    ∀ s : List (Player × Int), (score_keys s).Nodup →
      (score_keys (insert_score s p v)).Nodup
  | [] => by simp [insert_score, score_keys]
  | (a, b) :: rest => by
    intro h
    simp only [score_keys, List.map_cons, List.nodup_cons] at h
    by_cases hap : a = p
    · subst hap
      have he : insert_score ((a, b) :: rest) a v = (a, v) :: rest := by
        simp [insert_score]
      rw [he]
      simpa [score_keys] using h
    · simp only [insert_score, hap, if_false, score_keys, List.map_cons,
        List.nodup_cons]
      constructor
      · intro hmem
        rcases (score_keys_insert a p v rest).mp hmem with hc | hc
        · exact h.1 hc
        · exact hap hc
      · exact score_keys_insert_nodup p v rest h.2

theorem mem_score_keys_init_aux (q : Player) :
    ∀ (ps : List Player) (acc : List (Player × Int)),
      (q ∈ score_keys (ps.foldl (fun m p => insert_score m p 0) acc) ↔
        q ∈ score_keys acc ∨ q ∈ ps)
  | [], acc => by simp
  | p :: ps, acc => by
    simp only [List.foldl_cons,
      mem_score_keys_init_aux q ps (insert_score acc p 0),
      score_keys_insert q p 0 acc, List.mem_cons]
    tauto

theorem score_keys_init_nodup_aux :
    ∀ (ps : List Player) (acc : List (Player × Int)),
      (score_keys acc).Nodup →
      (score_keys (ps.foldl (fun m p => insert_score m p 0) acc)).Nodup
  | [], _ => fun h => h
  | p :: ps, acc => fun h =>
    score_keys_init_nodup_aux ps _ (score_keys_insert_nodup p 0 acc h)

theorem mem_score_keys_init (q : Player) (ps : List Player) :
    q ∈ score_keys (init_scores ps) ↔ q ∈ ps := by
  rw [init_scores, mem_score_keys_init_aux]
  simp [score_keys]

theorem init_scores_keys_nodup (ps : List Player) :
    (score_keys (init_scores ps)).Nodup :=
  score_keys_init_nodup_aux ps [] (by simp [score_keys])

theorem init_scores_ne_nil (ps : List Player) (h : ps ≠ []) :
    init_scores ps ≠ [] := by
  rcases List.exists_mem_of_ne_nil ps h with ⟨p, hp⟩
  intro hnil
  have := (mem_score_keys_init p ps).mpr hp
  rw [hnil] at this
  simp [score_keys] at this

theorem insert_score_of_not_mem (p : Player) (v : Int) :
    ∀ s : List (Player × Int), p ∉ score_keys s →
      insert_score s p v = s ++ [(p, v)]
  | [] => by simp [insert_score]
  | (a, b) :: rest => by
    intro h
    simp only [score_keys, List.map_cons, List.mem_cons] at h
    push_neg at h
    have hap : ¬ a = p := fun hh => h.1 hh.symm
    simp only [insert_score, hap, if_false, List.cons_append, List.cons.injEq,
      true_and]
    exact insert_score_of_not_mem p v rest (by simpa [score_keys] using h.2)

theorem init_scores_foldl_eq_map :
    ∀ (ps : List Player) (acc : List (Player × Int)), ps.Nodup →
      (∀ p ∈ ps, p ∉ score_keys acc) →
      ps.foldl (fun m p => insert_score m p 0) acc =
        acc ++ ps.map (fun p => (p, (0 : Int)))
  | [], acc => by simp
  | p :: ps, acc => by
    intro hnd hdisj
    simp only [List.foldl_cons, List.map_cons]
    rw [insert_score_of_not_mem p 0 acc (hdisj p (List.mem_cons_self p ps))]
    rw [init_scores_foldl_eq_map ps (acc ++ [(p, 0)]) (List.nodup_cons.mp hnd).2 ?_]
    · simp
    · intro q hq
      simp only [score_keys, List.map_append, List.mem_append, List.map_cons,
        List.map_nil, List.mem_cons, List.not_mem_nil, or_false, not_or]
      refine ⟨hdisj q (List.mem_cons_of_mem p hq), ?_⟩
      intro hqp
      exact (List.nodup_cons.mp hnd).1 (hqp ▸ hq)

theorem init_scores_eq_map (ps : List Player) (hnd : ps.Nodup) :
    init_scores ps = ps.map (fun p => (p, (0 : Int))) := by
  rw [init_scores, init_scores_foldl_eq_map ps [] hnd (by simp [score_keys])]
  simp

theorem score_keys_incr_of_mem (p : Player) :
    ∀ s : List (Player × Int), p ∈ score_keys s →
      score_keys (incr_score s p) = score_keys s
  | [] => by intro h; simp [score_keys] at h
  | (a, b) :: rest => by
    intro h
    by_cases hap : a = p
    · simp [incr_score, hap, score_keys]
    · have hrest : p ∈ score_keys rest := by
        simp only [score_keys, List.map_cons, List.mem_cons] at h
        rcases h with h | h
        · exact absurd h.symm hap
        · exact h
      simp only [incr_score, hap, if_false, score_keys, List.map_cons]
      have := score_keys_incr_of_mem p rest hrest
      simp only [score_keys] at this
      rw [this]

theorem incr_score_length_of_mem (p : Player) (s : List (Player × Int))
    (h : p ∈ score_keys s) : (incr_score s p).length = s.length := by
  have := congrArg List.length (score_keys_incr_of_mem p s h)
  simpa [score_keys] using this

theorem chunk_pairs_length :
    ∀ l : List (Player × Int), (chunk_pairs l).length = l.length / 2
  | [] => by simp [chunk_pairs]
  | [x] => by simp [chunk_pairs]
  | a :: b :: rest => by
    simp only [chunk_pairs, List.length_cons, chunk_pairs_length rest]
    omega

theorem chunk_pairs_mem :
    ∀ (l : List (Player × Int)) (pq : Player × Player), pq ∈ chunk_pairs l →
      pq.1 ∈ score_keys l ∧ pq.2 ∈ score_keys l
  | [], pq => by simp [chunk_pairs]
  | [x], pq => by simp [chunk_pairs]
  | a :: b :: rest, pq => by
    simp only [chunk_pairs, List.mem_cons]
    rintro (rfl | hm)
    · simp [score_keys]
    · have := chunk_pairs_mem rest pq hm
      simp only [score_keys, List.map_cons, List.mem_cons]
      simp only [score_keys] at this
      tauto

theorem pair_players_swiss_length (l : List (Player × Int)) :
    (pair_players_swiss l).length = l.length / 2 := by
  rw [pair_players_swiss, chunk_pairs_length, sort_desc, List.length_mergeSort]

theorem pair_players_swiss_mem (l : List (Player × Int))
    (pq : Player × Player) (h : pq ∈ pair_players_swiss l) :
    pq.1 ∈ score_keys l ∧ pq.2 ∈ score_keys l := by
  have hc := chunk_pairs_mem _ pq h
  have hperm : (sort_desc l).Perm l := List.mergeSort_perm l _
  have hk : (score_keys (sort_desc l)).Perm (score_keys l) := hperm.map Prod.fst
  exact ⟨hk.mem_iff.mp hc.1, hk.mem_iff.mp hc.2⟩

theorem play_swiss_pairs_spec (o : Oracle) :
    ∀ (pairs : List (Player × Player)) (k : Nat) (scores : List (Player × Int)),
      (∀ pq ∈ pairs, pq.1 ∈ score_keys scores ∧ pq.2 ∈ score_keys scores) →
      score_keys (play_swiss_pairs o k pairs scores).2.1 = score_keys scores ∧
      (play_swiss_pairs o k pairs scores).1.length = pairs.length ∧
      ∀ m ∈ (play_swiss_pairs o k pairs scores).1, match_valid m
  | [], k, scores => by
    intro _
    simp [play_swiss_pairs]
  | (p1, p2) :: rest, k, scores => by
    intro h
    have hw : (if o k = 0 then p1 else p2) ∈ score_keys scores := by
      rcases h (p1, p2) (List.mem_cons_self _ _) with ⟨h1, h2⟩
      by_cases hk : o k = 0 <;> simp [hk, h1, h2]
    have hkeys := score_keys_incr_of_mem _ scores hw
    have hrest : ∀ pq ∈ rest,
        pq.1 ∈ score_keys (incr_score scores (if o k = 0 then p1 else p2)) ∧
        pq.2 ∈ score_keys (incr_score scores (if o k = 0 then p1 else p2)) := by
      rw [hkeys]
      intro pq hpq
      exact h pq (List.mem_cons_of_mem _ hpq)
    have ih := play_swiss_pairs_spec o rest (k + 1)
      (incr_score scores (if o k = 0 then p1 else p2)) hrest
    simp only [play_swiss_pairs, simulate_match]
    refine ⟨ih.1.trans hkeys, by simp [ih.2.1], ?_⟩
    intro m hm
    rcases List.mem_cons.mp hm with rfl | hm
    · by_cases hk : o k = 0 <;> simp [match_valid, hk]
    · exact ih.2.2 m hm

theorem start_swiss_loop_spec (o : Oracle) (σ : ScoreIter)
    (hσ : ∀ t s, (σ t s).Perm s) :
    ∀ (remaining t : Nat) (scores : List (Player × Int)) (k : Nat),
      score_keys (start_swiss_loop o σ remaining t scores k).2.1 =
        score_keys scores ∧
      (start_swiss_loop o σ remaining t scores k).1.length =
        remaining * (scores.length / 2) ∧
      ∀ m ∈ (start_swiss_loop o σ remaining t scores k).1, match_valid m
  | 0, t, scores, k => by simp [start_swiss_loop]
  | remaining + 1, t, scores, k => by
    have hpairs : ∀ pq ∈ pair_players_swiss (σ t scores),
        pq.1 ∈ score_keys scores ∧ pq.2 ∈ score_keys scores := by
      intro pq hpq
      have hmem := pair_players_swiss_mem _ pq hpq
      have hk : (score_keys (σ t scores)).Perm (score_keys scores) :=
        (hσ t scores).map Prod.fst
      exact ⟨hk.mem_iff.mp hmem.1, hk.mem_iff.mp hmem.2⟩
    have hps := play_swiss_pairs_spec o (pair_players_swiss (σ t scores)) k
      scores hpairs
    have hlen : (play_swiss_pairs o k (pair_players_swiss (σ t scores))
        scores).2.1.length = scores.length := by
      have := congrArg List.length hps.1
      simpa [score_keys] using this
    have ihl := start_swiss_loop_spec o σ hσ remaining (t + 1)
      (play_swiss_pairs o k (pair_players_swiss (σ t scores)) scores).2.1
      (play_swiss_pairs o k (pair_players_swiss (σ t scores)) scores).2.2
    simp only [start_swiss_loop]
    refine ⟨ihl.1.trans hps.1, ?_, ?_⟩
    · simp only [List.length_append, hps.2.1, ihl.2.1, hlen,
        pair_players_swiss_length, (hσ t scores).length_eq, Nat.succ_mul]
      omega
    · intro m hm
      rcases List.mem_append.mp hm with hm | hm
      · exact hps.2.2 m hm
      · exact ihl.2.2 m hm

theorem max_by_key_score_spec :
    ∀ l : List (Player × Int), l ≠ [] →
      ∃ e, max_by_key_score l = some e ∧ e ∈ l ∧ ∀ x ∈ l, x.2 ≤ e.2
  | [] => by intro h; simp at h
  | x :: rest => by
    intro _
    by_cases hr : rest = []
    · subst hr
      exact ⟨x, by simp [max_by_key_score], by simp, by simp⟩
    · rcases max_by_key_score_spec rest hr with ⟨e, he, hmem, hmax⟩
      by_cases hgt : x.2 > e.2
      · refine ⟨x, ?_, by simp, ?_⟩
        · simp [max_by_key_score, he, hgt]
        · intro y hy
          rcases List.mem_cons.mp hy with rfl | hy
          · exact le_refl _
          · exact le_trans (hmax y hy) (le_of_lt hgt)
      · refine ⟨e, ?_, List.mem_cons_of_mem x hmem, ?_⟩
        · simp [max_by_key_score, he, hgt]
        · intro y hy
          rcases List.mem_cons.mp hy with rfl | hy
          · exact not_lt.mp hgt
          · exact hmax y hy

theorem score_of_eq_some_of_mem :
    ∀ s : List (Player × Int), (score_keys s).Nodup → ∀ p v, (p, v) ∈ s →
      score_of s p = some v
  | [] => by simp
  | (a, b) :: rest => by
    intro hnd p v hmem
    simp only [score_keys, List.map_cons, List.nodup_cons] at hnd
    rcases List.mem_cons.mp hmem with heq | hmem
    · injection heq with h1 h2
      subst h1; subst h2
      rw [score_of, List.find?_cons_of_pos _ (by simp)]
      rfl
    · by_cases hap : a = p
      · subst hap
        exact absurd (List.mem_map_of_mem Prod.fst hmem) hnd.1
      · rw [score_of, List.find?_cons_of_neg _ (by simpa using hap)]
        exact score_of_eq_some_of_mem rest hnd.2 p v hmem

theorem exists_score_of_mem_keys :
    ∀ s : List (Player × Int), ∀ p, p ∈ score_keys s →
      ∃ v, score_of s p = some v ∧ (p, v) ∈ s
  | [] => by simp [score_keys]
  | (a, b) :: rest => by
    intro p hp
    by_cases hap : a = p
    · subst hap
      refine ⟨b, ?_, List.mem_cons_self _ _⟩
      rw [score_of, List.find?_cons_of_pos _ (by simp)]
      rfl
    · have hp' : p ∈ score_keys rest := by
        simp only [score_keys, List.map_cons, List.mem_cons] at hp
        rcases hp with h | h
        · exact absurd h.symm hap
        · exact h
      rcases exists_score_of_mem_keys rest p hp' with ⟨v, hv, hmem⟩
      refine ⟨v, ?_, List.mem_cons_of_mem _ hmem⟩
      rw [score_of, List.find?_cons_of_neg _ (by simpa using hap)]
      exact hv

theorem clog_two_eq {n k : Nat} (hle : n ≤ 2 ^ k) (hgt : 2 ^ k < 2 * n) :
    Nat.clog 2 n = k := by
  have ha : Nat.clog 2 n ≤ k := (Nat.le_pow_iff_clog_le (by norm_num)).mp hle
  rcases Nat.eq_zero_or_pos k with rfl | hk
  · omega
  · have hb : ¬ Nat.clog 2 n ≤ k - 1 := by
      intro hc
      have h1 := (Nat.le_pow_iff_clog_le (by norm_num)).mpr hc
      have h2 : 2 ^ k = 2 * 2 ^ (k - 1) := by
        rw [← pow_succ']
        congr 1
        omega
      omega
    omega

theorem swiss_rounds_zero : swiss_rounds 0 = 0 := by
  rw [swiss_rounds_eq_clog, Nat.clog_zero_right]

theorem swiss_rounds_one : swiss_rounds 1 = 0 := by
  rw [swiss_rounds_eq_clog, Nat.clog_one_right]

theorem swiss_rounds_two : swiss_rounds 2 = 1 := by
  rw [swiss_rounds_eq_clog]
  exact clog_two_eq (by norm_num) (by norm_num)

/-- A list that is already sorted descending by score is left unchanged by
the stable sort. -/
theorem sort_desc_of_sorted (l : List (Player × Int))
    (h : List.Pairwise (fun a b : Player × Int => b.2 ≤ a.2) l) :
    sort_desc l = l :=
  List.mergeSort_of_sorted (by simpa using h)

theorem start_single_elimination_nil (o : Oracle) :
    start_single_elimination o [] = ([], none) := by
  simp [start_single_elimination, start_single_elimination_loop]

theorem start_single_elimination_some (o : Oracle) (players : List Player)
    (hne : players ≠ []) :
    ∃ w, (start_single_elimination o players).2 = some w ∧ w ∈ players := by
  have hs := sel_loop_spec o players.length 0 players rfl hne
  rcases List.length_eq_one.mp hs.1 with ⟨w, hw⟩
  refine ⟨w, ?_, ?_⟩
  · simp [start_single_elimination, hw]
  · refine hs.2.1 ?_
    rw [hw]
    exact List.mem_singleton_self w

theorem start_double_elimination_nil (o : Oracle) :
    start_double_elimination o [] = ([], none) := by
  simp [start_double_elimination, start_double_elimination_loop, Option.or]

theorem start_double_elimination_some (o : Oracle) (players : List Player)
    (hne : players ≠ []) :
    ∃ w, (start_double_elimination o players).2 = some w ∧ w ∈ players := by
  have hs := del_loop_spec o (2 * players.length) 0 players [] (by simp)
  rcases hfw : (start_double_elimination_loop o 0 players []).final_winner
    with _ | w
  · have hwb := hs.2.1 hne
    refine ⟨(start_double_elimination_loop o 0 players []).winners_bracket.head
      hwb, ?_, ?_⟩
    · simp [start_double_elimination, hfw, Option.or, List.head?_eq_head hwb]
    · exact hs.1 (List.head_mem hwb)
  · refine ⟨w, ?_, ?_⟩
    · simp [start_double_elimination, hfw, Option.or]
    · rcases hs.2.2.1 w hfw with hm | hm
      · exact hm
      · simp at hm

theorem start_swiss_nil (o : Oracle) (σ : ScoreIter)
    (hσ : ∀ t s, (σ t s).Perm s) : start_swiss o σ [] = ([], none) := by
  have hnil : σ 0 [] = [] := List.Perm.eq_nil (hσ 0 [])
  simp [start_swiss, init_scores, swiss_rounds_zero, start_swiss_loop, hnil,
    max_by_key_score]

theorem start_swiss_some (o : Oracle) (σ : ScoreIter)
    (hσ : ∀ t s, (σ t s).Perm s) (players : List Player) (hne : players ≠ []) :
    ∃ w, (start_swiss o σ players).2 = some w ∧ w ∈ players := by
  have hl := start_swiss_loop_spec o σ hσ (swiss_rounds players.length) 0
    (init_scores players) 0
  have hfne : (start_swiss_loop o σ (swiss_rounds players.length) 0
      (init_scores players) 0).2.1 ≠ [] := by
    intro hn
    have hk := hl.1
    rw [hn] at hk
    have : init_scores players = [] := by
      have hk2 := hk.symm
      simpa [score_keys, List.map_eq_nil_iff] using hk2
    exact init_scores_ne_nil players hne this
  have hσne : σ (swiss_rounds players.length)
      (start_swiss_loop o σ (swiss_rounds players.length) 0
        (init_scores players) 0).2.1 ≠ [] := by
    intro hn
    exact hfne ((hn ▸ hσ (swiss_rounds players.length) _).symm.eq_nil)
  rcases max_by_key_score_spec _ hσne with ⟨e, he, hmem, _⟩
  refine ⟨e.1, ?_, ?_⟩
  · simp only [start_swiss]
    rw [he]
    rfl
  · have h1 : e ∈ (start_swiss_loop o σ (swiss_rounds players.length) 0
        (init_scores players) 0).2.1 :=
      (hσ (swiss_rounds players.length) _).mem_iff.mp hmem
    have h2 : e.1 ∈ score_keys (start_swiss_loop o σ
        (swiss_rounds players.length) 0 (init_scores players) 0).2.1 :=
      List.mem_map_of_mem Prod.fst h1
    rw [hl.1] at h2
    exact (mem_score_keys_init e.1 players).mp h2

theorem play_swiss_pairs_matches_valid (o : Oracle) :
    ∀ (pairs : List (Player × Player)) (k : Nat)
      (scores : List (Player × Int)),
      ∀ m ∈ (play_swiss_pairs o k pairs scores).1, match_valid m
  | [], k, scores => by simp [play_swiss_pairs]
  | (p1, p2) :: rest, k, scores => by
    intro m hm
    simp only [play_swiss_pairs, simulate_match] at hm
    rcases List.mem_cons.mp hm with rfl | hm
    · by_cases hk : o k = 0 <;> simp [match_valid, hk]
    · exact play_swiss_pairs_matches_valid o rest (k + 1) _ m hm

theorem start_swiss_loop_matches_valid (o : Oracle) (σ : ScoreIter) :
    ∀ (remaining t : Nat) (scores : List (Player × Int)) (k : Nat),
      ∀ m ∈ (start_swiss_loop o σ remaining t scores k).1, match_valid m
  | 0, t, scores, k => by simp [start_swiss_loop]
  | remaining + 1, t, scores, k => by
    intro m hm
    simp only [start_swiss_loop] at hm
    rcases List.mem_append.mp hm with hm | hm
    · exact play_swiss_pairs_matches_valid o _ _ _ m hm
    · exact start_swiss_loop_matches_valid o σ remaining (t + 1) _ _ m hm

theorem start_some (tt : TournamentType) (o : Oracle) (σ : ScoreIter)
    (hσ : ∀ t s, (σ t s).Perm s) (players : List Player) (hne : players ≠ []) :
    ∃ w, ((Tournament.new tt players).start o σ).2 = some w ∧ w ∈ players := by
  cases tt with
  | SingleElimination =>
    simpa [Tournament.start, Tournament.new] using
      start_single_elimination_some o players hne
  | DoubleElimination =>
    simpa [Tournament.start, Tournament.new] using
      start_double_elimination_some o players hne
  | Swiss =>
    simpa [Tournament.start, Tournament.new] using
      start_swiss_some o σ hσ players hne

theorem start_nil (tt : TournamentType) (o : Oracle) (σ : ScoreIter)
    (hσ : ∀ t s, (σ t s).Perm s) :
    ((Tournament.new tt []).start o σ).2 = none ∧
    ((Tournament.new tt []).start o σ).1.matches' = [] := by
  cases tt <;>
    simp [Tournament.start, Tournament.new, start_single_elimination_nil,
      start_double_elimination_nil, start_swiss_nil o σ hσ]

theorem getD_zero_of_head_eq {α : Type} (l : List α) (d a : α)
    (h : l.head? = some a) : l.getD 0 d = a := by
  cases l with
  | nil => simp at h
  | cons x xs =>
    simp only [List.head?_cons, Option.some.injEq] at h
    simp [h]

theorem chain_getD_step (tr : List (List Player × List Player))
    (hch : List.Chain' de_step tr) (i : Nat) (h : i + 1 < tr.length) :
    de_step (tr.getD i ([], [])) (tr.getD (i + 1) ([], [])) := by
  rw [List.getD_eq_get _ _ (by omega), List.getD_eq_get _ _ h]
  exact List.chain'_iff_get.mp hch i (by omega)

theorem chain_nodup (tr : List (List Player × List Player))
    (hch : List.Chain' de_step tr)
    (h0 : ((tr.getD 0 ([], [])).1 ++ (tr.getD 0 ([], [])).2).Nodup) :
    ∀ i, i < tr.length →
      ((tr.getD i ([], [])).1 ++ (tr.getD i ([], [])).2).Nodup := by
  intro i
  induction i with
  | zero => intro _; exact h0
  | succ n ihn =>
    intro h
    exact (chain_getD_step tr hch n h).2.2 (ihn (by omega))

theorem chain_wb_subset (tr : List (List Player × List Player))
    (hch : List.Chain' de_step tr) :
    ∀ i j, i ≤ j → j < tr.length →
      (tr.getD j ([], [])).1 ⊆ (tr.getD i ([], [])).1 := by
  intro i j hij
  induction j, hij using Nat.le_induction with
  | base => intro _; exact fun a ha => ha
  | succ n hn ihn =>
    intro h
    exact fun a ha =>
      ihn (by omega) ((chain_getD_step tr hch n h).1 ha)

theorem chain_out_forever (tr : List (List Player × List Player))
    (hch : List.Chain' de_step tr) :
    ∀ i j, i ≤ j → j < tr.length → ∀ p, p ∉ (tr.getD i ([], [])).1 →
      p ∉ (tr.getD i ([], [])).2 →
      p ∉ (tr.getD j ([], [])).1 ∧ p ∉ (tr.getD j ([], [])).2 := by
  intro i j hij
  induction j, hij using Nat.le_induction with
  | base => intro _ p h1 h2; exact ⟨h1, h2⟩
  | succ n hn ihn =>
    intro h p h1 h2
    rcases ihn (by omega) p h1 h2 with ⟨hn1, hn2⟩
    have hstep := chain_getD_step tr hch n h
    constructor
    · intro hmem
      exact hn1 (hstep.1 hmem)
    · intro hmem
      rcases hstep.2.1 p hmem with hc | hc
      · exact hn1 hc
      · exact hn2 hc

/-- Concrete players used to witness the claims on small inputs. -/
def pA : Player := { id := 1, name := "A" }

def pB : Player := { id := 2, name := "B" }

def pC : Player := { id := 3, name := "C" }

/-- The oracle that always picks index 0 (the first-listed contestant). -/
def oW : Oracle := fun _ => 0

/-- The oracle that always picks index 1 (the second-listed contestant). -/
def oL : Oracle := fun _ => 1

/-- The identity iteration order for the score map. -/
def σW : ScoreIter := fun _ s => s

theorem σW_perm : ∀ t s, (σW t s).Perm s := fun _ s => List.Perm.refl s

/-- C1: for every tournament format, `start()` returns `none` if and only if
the initial roster is empty; for an empty roster it also records zero
matches, and for every non-empty roster it returns `some` player. -/
theorem claim_c1 (tt : TournamentType) (o : Oracle) (σ : ScoreIter)
    (hσ : ∀ t s, (σ t s).Perm s) (players : List Player) :
    (((Tournament.new tt players).start o σ).2 = none ↔ players = []) ∧
    (players = [] →
      ((Tournament.new tt players).start o σ).1.matches' = []) := by
  refine ⟨⟨?_, ?_⟩, ?_⟩
  · intro hnone
    by_contra hne
    rcases start_some tt o σ hσ players hne with ⟨w, hw, _⟩
    rw [hnone] at hw
    exact Option.noConfusion hw
  · intro h
    subst h
    exact (start_nil tt o σ hσ).1
  · intro h
    subst h
    exact (start_nil tt o σ hσ).2

theorem claim_c1_witness :
    (((Tournament.new TournamentType.SingleElimination [pA]).start oW σW).2 =
        none ↔ ([pA] : List Player) = []) ∧
    (([pA] : List Player) = [] →
      ((Tournament.new TournamentType.SingleElimination [pA]).start oW
          σW).1.matches' = []) :=
  claim_c1 TournamentType.SingleElimination oW σW σW_perm [pA]

/-- C2: for every roster of size `2 ^ k` and every outcome oracle, the
single-elimination driver records exactly `2 ^ k - 1` matches, each with a
non-`none` winner, and terminates with exactly one surviving contestant,
which it returns. -/
theorem claim_c2 (o : Oracle) (players : List Player) (k : Nat)
    (hlen : players.length = 2 ^ k) :
    (start_single_elimination o players).1.length = 2 ^ k - 1 ∧
    (∀ m ∈ (start_single_elimination o players).1, m.winner.isSome) ∧
    ∃ p, (start_single_elimination_loop o 0 players).2 = [p] ∧
      (start_single_elimination o players).2 = some p := by
  have hpos : 0 < 2 ^ k := pow_pos (by norm_num) k
  have hne : players ≠ [] := by
    intro h
    rw [h] at hlen
    simp at hlen
    omega
  have hs := sel_loop_spec o players.length 0 players rfl hne
  refine ⟨?_, ?_, ?_⟩
  · have := hs.2.2.1
    rw [hlen] at this
    exact this
  · intro m hm
    rcases hs.2.2.2 m hm with h | h <;> simp [h]
  · rcases List.length_eq_one.mp hs.1 with ⟨p, hp⟩
    exact ⟨p, hp, by simp [start_single_elimination, hp]⟩

theorem claim_c2_witness :
    (start_single_elimination oW [pA, pB]).1.length = 2 ^ 1 - 1 ∧
    (∀ m ∈ (start_single_elimination oW [pA, pB]).1, m.winner.isSome) ∧
    ∃ p, (start_single_elimination_loop oW 0 [pA, pB]).2 = [p] ∧
      (start_single_elimination oW [pA, pB]).2 = some p :=
  claim_c2 oW [pA, pB] 1 (by norm_num)

/-- C3 counterexample: the roster `[pA, pB, pC]` has size 3 ≥ 2, not a power
of two, yet under the always-first oracle the single-elimination driver
records exactly 2 = 3 - 1 matches — not fewer than `n - 1`. -/
theorem claim_c3_counterexample :
    ¬ (start_single_elimination oW [pA, pB, pC]).1.length <
        [pA, pB, pC].length - 1 := by
  have h : (start_single_elimination oW [pA, pB, pC]).1.length = 2 := by
    simp [start_single_elimination, start_single_elimination_loop, play_round,
      oW]
  simp [h]

/-- C3 amended: for every roster of size n ≥ 2 that is not a power of two,
the single-elimination driver produces byes, but they do not reduce the
recorded match count: it records exactly n − 1 matches (every recorded match
eliminates exactly one contestant, and a bye eliminates nobody). -/
theorem claim_c3_amended (o : Oracle) (players : List Player)
    (h2 : 2 ≤ players.length) :
    (start_single_elimination o players).1.length = players.length - 1 := by
  have hne : players ≠ [] := by
    intro h
    rw [h] at h2
    simp at h2
  exact (sel_loop_spec o players.length 0 players rfl hne).2.2.1

theorem claim_c3_amended_witness :
    (start_single_elimination oW [pA, pB, pC]).1.length =
      [pA, pB, pC].length - 1 :=
  claim_c3_amended oW [pA, pB, pC] (by norm_num)

/-- C4: for every duplicate-free roster of n players, every oracle and every
score-map iteration order, the Swiss driver plays exactly
`swiss_rounds n = log2 (next_power_of_two n)` rounds — 0 rounds for n ≤ 1,
1 round for n = 2, 3 rounds for 5 ≤ n ≤ 8 — and the total number of matches
recorded by `start()` equals `rounds * (n / 2)`. -/
theorem claim_c4 (o : Oracle) (σ : ScoreIter) (hσ : ∀ t s, (σ t s).Perm s)
    (players : List Player) (hnd : players.Nodup) :
    ((Tournament.new TournamentType.Swiss players).start o σ).1.matches'.length
      = swiss_rounds players.length * (players.length / 2) ∧
    swiss_rounds 0 = 0 ∧ swiss_rounds 1 = 0 ∧ swiss_rounds 2 = 1 ∧
    ∀ n, 5 ≤ n → n ≤ 8 → swiss_rounds n = 3 := by
  refine ⟨?_, swiss_rounds_zero, swiss_rounds_one, swiss_rounds_two, ?_⟩
  · have hs := start_swiss_loop_spec o σ hσ (swiss_rounds players.length) 0
      (init_scores players) 0
    have hil : (init_scores players).length = players.length := by
      rw [init_scores_eq_map players hnd, List.length_map]
    have hc := hs.2.1
    rw [hil] at hc
    simpa [Tournament.start, Tournament.new, start_swiss] using hc
  · intro n h5 h8
    rw [swiss_rounds_eq_clog]
    have h1 : n ≤ 2 ^ 3 := by norm_num; omega
    have h2 : 2 ^ 3 < 2 * n := by norm_num; omega
    exact clog_two_eq h1 h2

theorem claim_c4_witness :
    ((Tournament.new TournamentType.Swiss [pA, pB]).start oW
        σW).1.matches'.length =
      swiss_rounds ([pA, pB] : List Player).length *
        (([pA, pB] : List Player).length / 2) ∧
    swiss_rounds 0 = 0 ∧ swiss_rounds 1 = 0 ∧ swiss_rounds 2 = 1 ∧
    ∀ n, 5 ≤ n → n ≤ 8 → swiss_rounds n = 3 :=
  claim_c4 oW σW σW_perm [pA, pB] (by simp [pA, pB])

/-- C5: every Match appended to the tournament log by any driver (single
elimination, double elimination, Swiss — i.e. by the round executor, the
match simulator and the grand final) has its winner field set to `some`
player equal to either `player1` or `player2` of that Match. -/
theorem claim_c5 (tt : TournamentType) (o : Oracle) (σ : ScoreIter)
    (players : List Player) :
    ∀ m ∈ ((Tournament.new tt players).start o σ).1.matches',
      ∃ w, m.winner = some w ∧ (w = m.player1 ∨ w = m.player2) := by
  have hvalid : ∀ m ∈ ((Tournament.new tt players).start o σ).1.matches',
      match_valid m := by
    cases tt with
    | SingleElimination =>
      by_cases hne : players = []
      · subst hne
        simp [Tournament.start, Tournament.new, start_single_elimination_nil]
      · intro m hm
        simp only [Tournament.start, Tournament.new, List.nil_append] at hm
        exact (sel_loop_spec o players.length 0 players rfl hne).2.2.2 m hm
    | DoubleElimination =>
      intro m hm
      simp only [Tournament.start, Tournament.new, List.nil_append] at hm
      exact (del_loop_spec o (2 * players.length) 0 players []
        (by simp)).2.2.2.1 m hm
    | Swiss =>
      intro m hm
      simp only [Tournament.start, Tournament.new, List.nil_append] at hm
      exact start_swiss_loop_matches_valid o σ _ _ _ _ m hm
  intro m hm
  rcases hvalid m hm with h | h
  · exact ⟨m.player1, h, Or.inl rfl⟩
  · exact ⟨m.player2, h, Or.inr rfl⟩

theorem claim_c5_witness :
    ∃ w, ({ player1 := pA, player2 := pB, winner := some pA } : Match).winner
        = some w ∧
      (w = ({ player1 := pA, player2 := pB,
                winner := some pA } : Match).player1 ∨
       w = ({ player1 := pA, player2 := pB,
                winner := some pA } : Match).player2) :=
  claim_c5 TournamentType.Swiss oW σW [pA, pB]
    { player1 := pA, player2 := pB, winner := some pA }
    (by simp [Tournament.start, Tournament.new, start_swiss, swiss_rounds_two,
      start_swiss_loop, pair_players_swiss, sort_desc_of_sorted,
      List.pairwise_cons, chunk_pairs, play_swiss_pairs, simulate_match,
      init_scores, insert_score, incr_score, max_by_key_score, oW, σW, pA, pB])

/-- C6: in the double-elimination grand final between the winners-bracket
finalist `w` and the losers-pool finalist `l`: if `l` wins the first
grand-final match, exactly one additional match between the same two
contestants is decided and its winner is the tournament winner; if `w` wins
the first grand-final match, `w` is immediately the tournament winner with no
extra match. -/
theorem claim_c6 (o : Oracle) (k : Nat) (w l : Player) (hne : w ≠ l) :
    ((if o k = 0 then w else l) = l →
      (grand_final o k w l).1 =
        [{ player1 := w, player2 := l, winner := some l },
         { player1 := w, player2 := l,
           winner := some (if o (k + 1) = 0 then w else l) }] ∧
      (grand_final o k w l).2.1 = if o (k + 1) = 0 then w else l) ∧
    ((if o k = 0 then w else l) = w →
      (grand_final o k w l).1 =
        [{ player1 := w, player2 := l, winner := some w }] ∧
      (grand_final o k w l).2.1 = w) := by
  by_cases h0 : o k = 0
  · constructor
    · intro hl
      rw [if_pos h0] at hl
      exact absurd hl hne
    · intro _
      simp [grand_final, simulate_match, h0, hne]
  · constructor
    · intro _
      simp [grand_final, simulate_match, h0]
    · intro hw
      rw [if_neg h0] at hw
      exact absurd hw.symm hne

theorem claim_c6_witness :
    ((if oL 0 = 0 then pA else pB) = pB →
      (grand_final oL 0 pA pB).1 =
        [{ player1 := pA, player2 := pB, winner := some pB },
         { player1 := pA, player2 := pB,
           winner := some (if oL (0 + 1) = 0 then pA else pB) }] ∧
      (grand_final oL 0 pA pB).2.1 = if oL (0 + 1) = 0 then pA else pB) ∧
    ((if oL 0 = 0 then pA else pB) = pA →
      (grand_final oL 0 pA pB).1 =
        [{ player1 := pA, player2 := pB, winner := some pA }] ∧
      (grand_final oL 0 pA pB).2.1 = pA) :=
  claim_c6 oL 0 pA pB (by simp [pA, pB])

/-- C7: in the double-elimination driver on a duplicate-free roster, every
contestant enters the losers pool at most once over the whole run.  Along
the loop's state trace: (i) the winners pool only ever shrinks, so nobody
moves from the losers pool back to the winners pool — indeed (ii) a
contestant in the losers pool at cycle `i` is never in the winners pool at
any cycle `j ≥ i`; and (iii) a contestant who is dropped from the losers
pool never re-enters either pool. -/
theorem claim_c7 (o : Oracle) (players : List Player) (hnd : players.Nodup) :
    (∀ i p,
      i + 1 < (start_double_elimination_loop o 0 players []).trace.length →
      p ∈ ((start_double_elimination_loop o 0 players []).trace.getD (i + 1)
        ([], [])).1 →
      p ∈ ((start_double_elimination_loop o 0 players []).trace.getD i
        ([], [])).1) ∧
    (∀ i j p, i ≤ j →
      j < (start_double_elimination_loop o 0 players []).trace.length →
      p ∈ ((start_double_elimination_loop o 0 players []).trace.getD i
        ([], [])).2 →
      p ∉ ((start_double_elimination_loop o 0 players []).trace.getD j
        ([], [])).1) ∧
    (∀ i j p, i < j →
      j < (start_double_elimination_loop o 0 players []).trace.length →
      p ∈ ((start_double_elimination_loop o 0 players []).trace.getD i
        ([], [])).2 →
      p ∉ ((start_double_elimination_loop o 0 players []).trace.getD (i + 1)
        ([], [])).2 →
      p ∉ ((start_double_elimination_loop o 0 players []).trace.getD j
        ([], [])).1 ∧
      p ∉ ((start_double_elimination_loop o 0 players []).trace.getD j
        ([], [])).2) := by
  have hs := del_loop_spec o (2 * players.length) 0 players [] (by simp)
  have hch := hs.2.2.2.2.2.2
  have hhead := hs.2.2.2.2.2.1
  set tr := (start_double_elimination_loop o 0 players []).trace with htr
  have h0 : tr.getD 0 ([], []) = (players, []) :=
    getD_zero_of_head_eq _ _ _ hhead
  have hnd0 : ((tr.getD 0 ([], [])).1 ++ (tr.getD 0 ([], [])).2).Nodup := by
    rw [h0]
    simpa using hnd
  refine ⟨?_, ?_, ?_⟩
  · intro i p h hp
    exact (chain_getD_step _ hch i h).1 hp
  · intro i j p hij hj hp
    have hi : i < tr.length := lt_of_le_of_lt hij hj
    have hnodupi := chain_nodup _ hch hnd0 i hi
    have hpnotwb : p ∉ (tr.getD i ([], [])).1 := by
      intro hw
      rcases List.nodup_append.mp hnodupi with ⟨_, _, hdisj⟩
      exact hdisj hw hp
    intro hw
    exact hpnotwb (chain_wb_subset _ hch i j hij hj hw)
  · intro i j p hij hj hp hnotlb
    have hi1 : i + 1 < tr.length := by omega
    have hi : i < tr.length := by omega
    have hnodupi := chain_nodup _ hch hnd0 i hi
    have hpnotwb : p ∉ (tr.getD i ([], [])).1 := by
      intro hw
      rcases List.nodup_append.mp hnodupi with ⟨_, _, hdisj⟩
      exact hdisj hw hp
    have hpnotwb1 : p ∉ (tr.getD (i + 1) ([], [])).1 := fun hw =>
      hpnotwb ((chain_getD_step _ hch i hi1).1 hw)
    exact chain_out_forever _ hch (i + 1) j (by omega) hj p hpnotwb1 hnotlb

theorem claim_c7_witness :
    pB ∉ ((start_double_elimination_loop oW 0 [pA, pB] []).trace.getD 1
      ([], [])).1 :=
  (claim_c7 oW [pA, pB] (by simp [pA, pB])).2.1 1 1 pB (le_refl 1)
    (by simp [start_double_elimination_loop, de_cycle, play_round,
      losers_round, grand_final, simulate_match, oW, pA, pB])
    (by simp [start_double_elimination_loop, de_cycle, play_round,
      losers_round, grand_final, simulate_match, oW, pA, pB])

/-- C8: for every non-empty roster and every oracle and score-map iteration
order, the player returned by the Swiss driver carries a final score greater
than or equal to the final score of every roster player. -/
theorem claim_c8 (o : Oracle) (σ : ScoreIter) (hσ : ∀ t s, (σ t s).Perm s)
    (players : List Player) (hne : players ≠ []) :
    ∃ w sw, (start_swiss o σ players).2 = some w ∧
      score_of (start_swiss_loop o σ (swiss_rounds players.length) 0
        (init_scores players) 0).2.1 w = some sw ∧
      ∀ p ∈ players, ∃ sp,
        score_of (start_swiss_loop o σ (swiss_rounds players.length) 0
          (init_scores players) 0).2.1 p = some sp ∧ sp ≤ sw := by
  have hl := start_swiss_loop_spec o σ hσ (swiss_rounds players.length) 0
    (init_scores players) 0
  have hknd : (score_keys (start_swiss_loop o σ (swiss_rounds players.length)
      0 (init_scores players) 0).2.1).Nodup := by
    rw [hl.1]
    exact init_scores_keys_nodup players
  have hfne : (start_swiss_loop o σ (swiss_rounds players.length) 0
      (init_scores players) 0).2.1 ≠ [] := by
    intro hn
    have hk := hl.1
    rw [hn] at hk
    have : init_scores players = [] := by
      have hk2 := hk.symm
      simpa [score_keys, List.map_eq_nil_iff] using hk2
    exact init_scores_ne_nil players hne this
  have hσne : σ (swiss_rounds players.length)
      (start_swiss_loop o σ (swiss_rounds players.length) 0
        (init_scores players) 0).2.1 ≠ [] := by
    intro hn
    exact hfne ((hn ▸ hσ (swiss_rounds players.length) _).symm.eq_nil)
  rcases max_by_key_score_spec _ hσne with ⟨e, he, hmem, hmax⟩
  have hefin : e ∈ (start_swiss_loop o σ (swiss_rounds players.length) 0
      (init_scores players) 0).2.1 :=
    (hσ (swiss_rounds players.length) _).mem_iff.mp hmem
  refine ⟨e.1, e.2, ?_, ?_, ?_⟩
  · simp only [start_swiss]
    rw [he]
    rfl
  · exact score_of_eq_some_of_mem _ hknd e.1 e.2 hefin
  · intro p hp
    have hpk : p ∈ score_keys (start_swiss_loop o σ
        (swiss_rounds players.length) 0 (init_scores players) 0).2.1 := by
      rw [hl.1]
      exact (mem_score_keys_init p players).mpr hp
    rcases exists_score_of_mem_keys _ p hpk with ⟨v, hv, hmemp⟩
    refine ⟨v, hv, ?_⟩
    have : (p, v) ∈ σ (swiss_rounds players.length)
        (start_swiss_loop o σ (swiss_rounds players.length) 0
          (init_scores players) 0).2.1 :=
      (hσ (swiss_rounds players.length) _).mem_iff.mpr hmemp
    exact hmax (p, v) this

theorem claim_c8_witness :
    ∃ w sw, (start_swiss oW σW [pA]).2 = some w ∧
      score_of (start_swiss_loop oW σW (swiss_rounds [pA].length) 0
        (init_scores [pA]) 0).2.1 w = some sw ∧
      ∀ p ∈ [pA], ∃ sp,
        score_of (start_swiss_loop oW σW (swiss_rounds [pA].length) 0
          (init_scores [pA]) 0).2.1 p = some sp ∧ sp ≤ sw :=
  claim_c8 oW σW σW_perm [pA] (by simp)

/-- C9: for every finite roster, format and oracle, `start()` terminates —
every driver in this embedding is a total function — and in particular the
double-elimination loop always exits after finitely many cycles: starting
from any pools it visits at most `2·|winners_bracket| + |losers_bracket| + 1`
loop-head states. -/
theorem claim_c9 (o : Oracle) (k : Nat) (wb lb : List Player) :
    (start_double_elimination_loop o k wb lb).trace.length ≤
      2 * wb.length + lb.length + 1 :=
  (del_loop_spec o (2 * wb.length + lb.length) k wb lb rfl).2.2.2.2.1

/-- C10: for every non-empty roster, every format, every oracle (whose
decision is always one of its two arguments) and every score-map iteration
order, the player returned by `start()` is an element of the initial
roster. -/
theorem claim_c10 (tt : TournamentType) (o : Oracle) (σ : ScoreIter)
    (hσ : ∀ t s, (σ t s).Perm s) (players : List Player)
    (hne : players ≠ []) :
    ∃ w, ((Tournament.new tt players).start o σ).2 = some w ∧ w ∈ players :=
  start_some tt o σ hσ players hne

theorem claim_c10_witness :
    ∃ w, ((Tournament.new TournamentType.DoubleElimination [pA, pB]).start oW
        σW).2 = some w ∧ w ∈ [pA, pB] :=
  claim_c10 TournamentType.DoubleElimination oW σW σW_perm [pA, pB] (by simp)
